import Mathlib

/-!
Verification of the sliding-window rate limiter and admission middleware of
`src/main.go` (package `main`).

Instants and durations are modelled as `Int`, in the same unit Go uses for
`time.Time`/`time.Duration` (nanoseconds); none of the verified properties
depend on arithmetic overflow of Go's `int64`, so plain `Int` is used.
The Go method `(rl *rateLimiter) allow` mutates `rl.hits` in place and can
panic (`q[0]` on an empty slice when `len(q) >= rl.limit` holds with an empty
pruned queue); here it is a pure function returning `Option` (`none` models
the panic) together with the updated limiter state.
-/

/-- State of the Go struct `rateLimiter` (src/main.go lines 37-42).
The Go map `hits map[string][]time.Time` is modelled as a total function:
a missing key reads as the empty list, exactly like a Go map lookup that
yields a `nil` slice.  The mutex field only serializes the body of `allow`;
in this sequential model every `allow` call is already atomic. -/
structure rateLimiter where
  hits : String → List Int
  limit : Nat
  window : Int

/-- Write-back of one key's slice into the `hits` map (`rl.hits[key] = q`). -/
def updateHits (f : String → List Int) (key : String) (v : List Int) :
    String → List Int :=
  fun k => if k = key then v else f k

/-- Go `newRateLimiter` (src/main.go lines 44-46): empty map. -/
def newRateLimiter (limit : Nat) (window : Int) : rateLimiter :=
  { hits := fun _ => [], limit := limit, window := window }

/-- The prune loop of `allow` (src/main.go lines 56-62): advance `i` while
`q[i].Before(cutoff)`, then keep `q[i:]`.  It drops the longest contiguous
prefix of entries strictly older than `cutoff` and stops at the first entry
that is not. -/
def dropOld (cutoff : Int) : List Int → List Int
  | [] => []
  | t :: ts => if t < cutoff then dropOld cutoff ts else t :: ts

/-- Go `(rl *rateLimiter) allow(key)` (src/main.go lines 48-72), with the
wall-clock read `time.Now()` made an explicit argument `now`.
Returns `none` where the Go code panics: in the deny branch `retry` reads
`q[0]`, which is an index-out-of-range panic when the pruned queue is empty
(reachable exactly when `rl.limit = 0`). -/
def rateLimiter.allow (rl : rateLimiter) (key : String) (now : Int) :
    Option ((Bool × Int) × rateLimiter) :=
  let cutoff := now - rl.window
  let q := dropOld cutoff (rl.hits key)
  if q.length ≥ rl.limit then
    match q with
    | [] => none
    | t0 :: _ =>
      some ((false, rl.window - (now - t0)),
        { rl with hits := updateHits rl.hits key q })
  else
    some ((true, 0), { rl with hits := updateHits rl.hits key (q ++ [now]) })

/-- Sequential runs of `allow` for a single key at the given call times,
threading the limiter state; `none` when some call panics. -/
def allowRun (key : String) : rateLimiter → List Int →
    Option (List (Bool × Int) × rateLimiter)
  | rl, [] => some ([], rl)
  | rl, t :: ts =>
    match rl.allow key t with
    | none => none
    | some (res, rl1) =>
      match allowRun key rl1 ts with
      | none => none
      | some (out, rl2) => some (res :: out, rl2)

/-- Sequential runs of `allow` over a list of (key, time) calls, recording
for each call its key and the returned (admitted, retryAfter) pair. -/
def allowTrace : rateLimiter → List (String × Int) →
    Option (List (String × Bool × Int) × rateLimiter)
  | rl, [] => some ([], rl)
  | rl, (key, t) :: cs =>
    match rl.allow key t with
    | none => none
    | some ((ok, retry), rl1) =>
      match allowTrace rl1 cs with
      | none => none
      | some (out, rl2) => some ((key, ok, retry) :: out, rl2)

/-! Basic lemmas about `updateHits` and `dropOld`. -/

theorem updateHits_apply (f : String → List Int) (key : String) (v : List Int) :
    updateHits f key v key = v := by
  simp [updateHits]

theorem updateHits_apply_ne (f : String → List Int) (key : String)
    (v : List Int) (k : String) (h : k ≠ key) : updateHits f key v k = f k := by
  simp [updateHits, h]

theorem dropOld_eq_self (c : Int) (l : List Int) (h : ∀ t ∈ l, c ≤ t) :
    dropOld c l = l := by
  cases l with
  | nil => rfl
  | cons t ts =>
    have ht : c ≤ t := h t (List.mem_cons_self t ts)
    simp [dropOld, not_lt.mpr ht]

theorem dropOld_eq_nil (c : Int) (l : List Int) (h : ∀ t ∈ l, t < c) :
    dropOld c l = [] := by
  induction l with
  | nil => rfl
  | cons t ts ih =>
    have ht : t < c := h t (List.mem_cons_self t ts)
    simp only [dropOld, if_pos ht]
    exact ih fun s hs => h s (List.mem_cons_of_mem t hs)

theorem dropOld_length_le (c : Int) (l : List Int) :
    (dropOld c l).length ≤ l.length := by
  induction l with
  | nil => exact Nat.le_refl 0
  | cons t ts ih =>
    by_cases ht : t < c
    · simp only [dropOld, if_pos ht]
      exact Nat.le_succ_of_le ih
    · simp [dropOld, if_neg ht]

theorem dropOld_sorted_eq_filter (c : Int) (l : List Int)
    (h : l.Sorted (· ≤ ·)) :
    dropOld c l = l.filter (fun t => decide (c ≤ t)) := by
  induction l with
  | nil => rfl
  | cons t ts ih =>
    rcases List.sorted_cons.mp h with ⟨hhead, htail⟩
    by_cases ht : t < c
    · have : (decide (c ≤ t)) = false := by simp [not_le.mpr ht]
      simp only [dropOld, if_pos ht, List.filter_cons, this]
      simp only [Bool.false_eq_true, if_neg (by simp : ¬False)]
      exact ih htail
    · have hct : c ≤ t := not_lt.mp ht
      have : (decide (c ≤ t)) = true := by simp [hct]
      simp only [dropOld, if_neg ht, List.filter_cons, this, if_pos trivial]
      have hall : ∀ s ∈ ts, decide (c ≤ s) = true := by
        intro s hs
        exact decide_eq_true (le_trans hct (hhead s hs))
      rw [List.filter_eq_self.mpr hall]

/-! Characterizing equations and inversion for `allow`. -/

theorem allow_grant (rl : rateLimiter) (key : String) (now : Int)
    (h : (dropOld (now - rl.window) (rl.hits key)).length < rl.limit) :
    rl.allow key now = some ((true, 0),
      { rl with hits := (updateHits rl.hits key
          (dropOld (now - rl.window) (rl.hits key) ++ [now])) }) := by
  simp only [rateLimiter.allow]
  rw [if_neg (not_le.mpr h)]

theorem allow_deny (rl : rateLimiter) (key : String) (now t0 : Int)
    (ts : List Int)
    (hq : dropOld (now - rl.window) (rl.hits key) = t0 :: ts)
    (h : rl.limit ≤ ts.length + 1) :
    rl.allow key now = some ((false, rl.window - (now - t0)),
      { rl with hits := updateHits rl.hits key (t0 :: ts) }) := by
  simp only [rateLimiter.allow, hq]
  rw [if_pos (by simpa using h)]

theorem allow_panic (rl : rateLimiter) (key : String) (now : Int)
    (hq : dropOld (now - rl.window) (rl.hits key) = [])
    (h : rl.limit = 0) :
    rl.allow key now = none := by
  simp only [rateLimiter.allow, hq, h]
  rfl

theorem allow_inv (rl : rateLimiter) (key : String) (now : Int)
    (ok : Bool) (r : Int) (rl1 : rateLimiter)
    (h : rl.allow key now = some ((ok, r), rl1)) :
    (ok = true ∧ r = 0 ∧
      (dropOld (now - rl.window) (rl.hits key)).length < rl.limit ∧
      rl1 = { rl with hits := (updateHits rl.hits key
          (dropOld (now - rl.window) (rl.hits key) ++ [now])) }) ∨
    (ok = false ∧ ∃ t0 ts,
      dropOld (now - rl.window) (rl.hits key) = t0 :: ts ∧
      rl.limit ≤ ts.length + 1 ∧ r = rl.window - (now - t0) ∧
      rl1 = { rl with hits := updateHits rl.hits key (t0 :: ts) }) := by
  by_cases hge : rl.limit ≤ (dropOld (now - rl.window) (rl.hits key)).length
  · right
    cases hq : dropOld (now - rl.window) (rl.hits key) with
    | nil =>
      exfalso
      have hlim : rl.limit = 0 := by
        have := hge
        rw [hq] at this
        simpa using this
      rw [allow_panic rl key now hq hlim] at h
      exact Option.noConfusion h
    | cons t0 ts =>
      have hlen : rl.limit ≤ ts.length + 1 := by
        have := hge
        rw [hq] at this
        simpa using this
      rw [allow_deny rl key now t0 ts hq hlen] at h
      simp only [Option.some.injEq, Prod.mk.injEq] at h
      obtain ⟨⟨hok, hr⟩, hrl⟩ := h
      exact ⟨hok.symm, t0, ts, rfl, hlen, hr.symm, hrl.symm⟩
  · left
    have hlt := not_le.mp hge
    rw [allow_grant rl key now hlt] at h
    simp only [Option.some.injEq, Prod.mk.injEq] at h
    obtain ⟨⟨hok, hr⟩, hrl⟩ := h
    exact ⟨hok.symm, hr.symm, hlt, hrl.symm⟩

/-! Frame and congruence properties of `allow`. -/

theorem allow_frame (rl : rateLimiter) (key : String) (now : Int)
    (ok : Bool) (r : Int) (rl1 : rateLimiter)
    (h : rl.allow key now = some ((ok, r), rl1)) :
    rl1.limit = rl.limit ∧ rl1.window = rl.window ∧
    ∀ k, k ≠ key → rl1.hits k = rl.hits k := by
  rcases allow_inv rl key now ok r rl1 h with ⟨_, _, _, hrl⟩ | ⟨_, t0, ts, _, _, _, hrl⟩ <;>
    subst hrl <;>
    exact ⟨rfl, rfl, fun k hk => updateHits_apply_ne _ _ _ _ hk⟩

theorem allow_some (rl : rateLimiter) (key : String) (now : Int)
    (h : 0 < rl.limit) :
    ∃ ok r rl1, rl.allow key now = some ((ok, r), rl1) := by
  by_cases hge : rl.limit ≤ (dropOld (now - rl.window) (rl.hits key)).length
  · cases hq : dropOld (now - rl.window) (rl.hits key) with
    | nil =>
      exfalso
      rw [hq] at hge
      simp at hge
      omega
    | cons t0 ts =>
      have hlen : rl.limit ≤ ts.length + 1 := by
        rw [hq] at hge
        simpa using hge
      exact ⟨false, _, _, allow_deny rl key now t0 ts hq hlen⟩
  · exact ⟨true, 0, _, allow_grant rl key now (not_le.mp hge)⟩

theorem allow_congr (rl rlA : rateLimiter) (key : String) (now : Int)
    (hh : rl.hits key = rlA.hits key) (hl : rl.limit = rlA.limit)
    (hw : rl.window = rlA.window) (ok : Bool) (r : Int) (rl1 : rateLimiter)
    (h : rl.allow key now = some ((ok, r), rl1)) :
    ∃ rlA1, rlA.allow key now = some ((ok, r), rlA1) ∧
      rl1.hits key = rlA1.hits key := by
  rcases allow_inv rl key now ok r rl1 h with
    ⟨hok, hr, hlt, hrl⟩ | ⟨hok, t0, ts, hq, hlen, hr, hrl⟩
  · subst hok
    subst hr
    have hlt' : (dropOld (now - rlA.window) (rlA.hits key)).length < rlA.limit := by
      rw [← hh, ← hl, ← hw]
      exact hlt
    refine ⟨_, allow_grant rlA key now hlt', ?_⟩
    subst hrl
    simp only [updateHits_apply]
    rw [hh, hw]
  · subst hok
    subst hr
    have hq' : dropOld (now - rlA.window) (rlA.hits key) = t0 :: ts := by
      rw [← hh, ← hw]
      exact hq
    have hlen' : rlA.limit ≤ ts.length + 1 := hl ▸ hlen
    refine ⟨{ rlA with hits := updateHits rlA.hits key (t0 :: ts) }, ?_, ?_⟩
    · rw [hw]
      exact allow_deny rlA key now t0 ts hq' hlen'
    · subst hrl
      simp only [updateHits_apply]

/-! Lemmas about sequential runs. -/

theorem allowRun_append (key : String) (xs ys : List Int) :
    ∀ rl : rateLimiter, allowRun key rl (xs ++ ys)
      = (allowRun key rl xs).bind fun p =>
          (allowRun key p.2 ys).map fun q => (p.1 ++ q.1, q.2) := by
  induction xs with
  | nil =>
    intro rl
    cases h : allowRun key rl ys with
    | none => simp [allowRun, h]
    | some p =>
      obtain ⟨out, rl2⟩ := p
      simp [allowRun, h]
  | cons x xs ih =>
    intro rl
    simp only [List.cons_append, allowRun]
    cases ha : rl.allow key x with
    | none => rfl
    | some pr =>
      obtain ⟨res, rl1⟩ := pr
      have e : xs.append ys = xs ++ ys := rfl
      rw [e]
      show (match allowRun key rl1 (xs ++ ys) with
          | none => none
          | some (out, rl2) => some (res :: out, rl2)) =
        (match allowRun key rl1 xs with
          | none => none
          | some (out, rl2) => some (res :: out, rl2)).bind
          fun p => Option.map
            (fun q : List (Bool × Int) × rateLimiter => (p.1 ++ q.1, q.2))
            (allowRun key p.2 ys)
      rw [ih rl1]
      cases h1 : allowRun key rl1 xs with
      | none => rfl
      | some p =>
        obtain ⟨out, rl2⟩ := p
        cases h2 : allowRun key rl2 ys with
        | none => simp [h2]
        | some q =>
          obtain ⟨out2, rl3⟩ := q
          simp [h2]

/-- Core admission lemma: from a state whose stored timestamps for `key` all
lie in an interval `[a, b]` shorter than the window, a batch of further calls
at times inside that interval is fully admitted (nothing gets pruned, each
call sees a queue shorter than the limit) and the times are appended in call
order. -/
theorem allowRun_admit_all (key : String) (a b : Int) :
    ∀ (times : List Int) (rl : rateLimiter),
      b - a < rl.window →
      (∀ t ∈ rl.hits key, a ≤ t ∧ t ≤ b) →
      (∀ t ∈ times, a ≤ t ∧ t ≤ b) →
      (rl.hits key).length + times.length ≤ rl.limit →
      ∃ rl1, allowRun key rl times
          = some (List.replicate times.length (true, 0), rl1) ∧
        rl1.hits key = rl.hits key ++ times ∧
        rl1.limit = rl.limit ∧ rl1.window = rl.window ∧
        (∀ k, k ≠ key → rl1.hits k = rl.hits k) := by
  intro times
  induction times with
  | nil =>
    intro rl hW hprev htimes hlen
    exact ⟨rl, rfl, (List.append_nil _).symm, rfl, rfl, fun _ _ => rfl⟩
  | cons t ts ih =>
    intro rl hW hprev htimes hlen
    have hcut : ∀ s ∈ rl.hits key, t - rl.window ≤ s := by
      intro s hs
      have h1 := (hprev s hs).1
      have h2 := (htimes t (List.mem_cons_self t ts)).2
      omega
    have hprune : dropOld (t - rl.window) (rl.hits key) = rl.hits key :=
      dropOld_eq_self _ _ hcut
    have hlt : (dropOld (t - rl.window) (rl.hits key)).length < rl.limit := by
      rw [hprune]
      simp only [List.length_cons] at hlen
      omega
    have hstep := allow_grant rl key t hlt
    rw [hprune] at hstep
    have hprev1 : ∀ s ∈ rl.hits key ++ [t], a ≤ s ∧ s ≤ b := by
      intro s hs
      rcases List.mem_append.mp hs with hs1 | hs1
      · exact hprev s hs1
      · rcases List.mem_singleton.mp hs1 with rfl
        exact htimes s (List.mem_cons_self s ts)
    have hts : ∀ s ∈ ts, a ≤ s ∧ s ≤ b :=
      fun s hs => htimes s (List.mem_cons_of_mem t hs)
    have hlen1 : ((rl.hits key ++ [t]).length) + ts.length ≤ rl.limit := by
      simp only [List.length_append, List.length_cons, List.length_nil] at *
      omega
    obtain ⟨rl2, hrun, hh, hl, hw, hfr⟩ :=
      ih { rl with hits := (updateHits rl.hits key (rl.hits key ++ [t])) }
        hW (by simpa only [updateHits_apply] using hprev1)
        hts (by simpa only [updateHits_apply] using hlen1)
    refine ⟨rl2, ?_, ?_, ?_, ?_, ?_⟩
    · simp only [allowRun, hstep, hrun]
      simp [List.replicate_succ]
    · rw [hh]
      simp only [updateHits_apply]
      simp [List.append_assoc]
    · exact hl
    · exact hw
    · intro k hk
      rw [hfr k hk]
      exact updateHits_apply_ne _ _ _ _ hk

/-- Core denial lemma: from a state whose stored (unprunable) queue for `key`
already has length at least the limit, any further batch of calls at time
`now` is denied with the same retry value, and the stored queue is written
back unchanged each time. -/
theorem allowRun_deny_all (key : String) (now t0 : Int) (ts : List Int) :
    ∀ (m : Nat) (rl : rateLimiter),
      rl.hits key = t0 :: ts →
      (∀ s ∈ t0 :: ts, now - rl.window ≤ s) →
      rl.limit ≤ ts.length + 1 →
      ∃ rl1, allowRun key rl (List.replicate m now)
          = some (List.replicate m (false, rl.window - (now - t0)), rl1) ∧
        rl1.hits key = t0 :: ts ∧ rl1.limit = rl.limit ∧
        rl1.window = rl.window := by
  intro m
  induction m with
  | zero =>
    intro rl hh hcut hlen
    exact ⟨rl, rfl, hh, rfl, rfl⟩
  | succ n ih =>
    intro rl hh hcut hlen
    have hprune : dropOld (now - rl.window) (rl.hits key) = t0 :: ts := by
      rw [hh]
      exact dropOld_eq_self _ _ hcut
    have hstep := allow_deny rl key now t0 ts hprune hlen
    obtain ⟨rl2, hrun, hh2, hl2, hw2⟩ :=
      ih { rl with hits := updateHits rl.hits key (t0 :: ts) }
        (updateHits_apply _ _ _) hcut hlen
    refine ⟨rl2, ?_, hh2, hl2, hw2⟩
    simp only [List.replicate_succ, allowRun, hstep, hrun]

/-! Claim theorems: the rate limiter proper. -/

/-- C1: for every limit L > 0 and window W > 0 and any single client key,
L calls to `allow` for that key, all lying inside an interval of duration
less than W, are all admitted (each with retryAfter 0), and an (L+1)-th call
inside that same interval is denied (src/main.go lines 48-72). -/
theorem allow_admits_up_to_limit (L : Nat) (W : Int) (key : String)
    (times : List Int) (tNext a b : Int)
    (hL : 0 < L) (hW : 0 < W) (hlen : times.length = L)
    (hab : b - a < W) (ht : ∀ t ∈ times, a ≤ t ∧ t ≤ b)
    (hn : a ≤ tNext ∧ tNext ≤ b) :
    ∃ retry rlF, allowRun key (newRateLimiter L W) (times ++ [tNext])
      = some (List.replicate L (true, 0) ++ [(false, retry)], rlF) := by
  rcases times with _ | ⟨t0, ts⟩
  · exfalso
    rw [← hlen] at hL
    simp at hL
  obtain ⟨rl1, hrun, hh, hl, hw, hfr⟩ :=
    allowRun_admit_all key a b (t0 :: ts) (newRateLimiter L W)
      hab (by intro t htm; cases htm) ht
      (by simp only [newRateLimiter, List.length_nil, Nat.zero_add, hlen]; exact le_refl L)
  have hh1 : rl1.hits key = t0 :: ts := by
    rw [hh]
    rfl
  have hw1 : rl1.window = W := hw
  have hl1 : rl1.limit = L := hl
  have hcut : ∀ s ∈ t0 :: ts, tNext - rl1.window ≤ s := by
    intro s hs
    have h1 := (ht s hs).1
    have h2 := hn.2
    rw [hw1]
    omega
  have hprune : dropOld (tNext - rl1.window) (rl1.hits key) = t0 :: ts := by
    rw [hh1]
    exact dropOld_eq_self _ _ hcut
  have hlen2 : rl1.limit ≤ ts.length + 1 := by
    rw [hl1, ← hlen]
    simp
  have hstep := allow_deny rl1 key tNext t0 ts hprune hlen2
  refine ⟨rl1.window - (tNext - t0),
    { rl1 with hits := updateHits rl1.hits key (t0 :: ts) }, ?_⟩
  rw [allowRun_append key (t0 :: ts) [tNext] (newRateLimiter L W), hrun]
  have hsingle : allowRun key rl1 [tNext]
      = some ([(false, rl1.window - (tNext - t0))],
          { rl1 with hits := updateHits rl1.hits key (t0 :: ts) }) := by
    simp only [allowRun, hstep]
  simp only [Option.some_bind, hsingle, Option.map_some]
  rw [← hlen]
  simp

theorem allow_admits_up_to_limit_witness :
    ∃ retry rlF, allowRun "X" (newRateLimiter 2 10) ([0, 1] ++ [2])
      = some (List.replicate 2 (true, 0) ++ [(false, retry)], rlF) :=
  allow_admits_up_to_limit 2 10 "X" [0, 1] 2 0 2 (by decide) (by decide)
    (by decide) (by decide) (by decide) (by decide)

/-- C2: whenever `allow` denies, the returned retryAfter equals
window - (now - oldest remaining timestamp), the pruned queue is written back
without appending `now`, and a further call for that key at
now + retryAfter + eps (eps > 0, no intervening admissions) is admitted.
The hypothesis that the stored queue is not longer than the limit is the
store invariant every reachable state satisfies (proved from the empty store
in the C10 theorem). -/
theorem deny_retry_after (rl : rateLimiter) (key : String) (now retry : Int)
    (rl1 : rateLimiter) (eps : Int)
    (hinv : (rl.hits key).length ≤ rl.limit)
    (h : rl.allow key now = some ((false, retry), rl1))
    (heps : 0 < eps) :
    ∃ t0 ts, dropOld (now - rl.window) (rl.hits key) = t0 :: ts ∧
      retry = rl.window - (now - t0) ∧
      rl1.hits key = t0 :: ts ∧
      ∃ rl2, rl1.allow key (now + retry + eps) = some ((true, 0), rl2) := by
  rcases allow_inv rl key now false retry rl1 h with
    ⟨hok, _⟩ | ⟨_, t0, ts, hq, hlen, hr, hrl⟩
  · exact absurd hok (by simp)
  · have hw1 : rl1.window = rl.window := by subst hrl; rfl
    have hl1 : rl1.limit = rl.limit := by subst hrl; rfl
    have hh1 : rl1.hits key = t0 :: ts := by
      subst hrl
      exact updateHits_apply _ _ _
    refine ⟨t0, ts, hq, hr, hh1, ?_⟩
    have hlen0 : ts.length + 1 ≤ (rl.hits key).length := by
      have hle := dropOld_length_le (now - rl.window) (rl.hits key)
      rw [hq] at hle
      simpa using hle
    have ht0 : t0 < (now + retry + eps) - rl1.window := by
      rw [hr, hw1]
      omega
    have hlt : (dropOld ((now + retry + eps) - rl1.window)
        (rl1.hits key)).length < rl1.limit := by
      rw [hh1, hl1]
      have hdrop : dropOld ((now + retry + eps) - rl1.window) (t0 :: ts)
          = dropOld ((now + retry + eps) - rl1.window) ts := by
        simp [dropOld, ht0]
      rw [hdrop]
      have hle2 := dropOld_length_le ((now + retry + eps) - rl1.window) ts
      omega
    exact ⟨_, allow_grant rl1 key (now + retry + eps) hlt⟩

/-- Concrete state for the C2 witness: one hit at t = 5, limit 1, window 10. -/
def denyExState : rateLimiter :=
  { hits := updateHits (fun _ => []) "k" [5], limit := 1, window := 10 }

/-- State of `denyExState` after the denial at t = 6 (pruned queue written
back). -/
def denyExState1 : rateLimiter :=
  { hits := updateHits (updateHits (fun _ => []) "k" [5]) "k" [5],
    limit := 1, window := 10 }

theorem deny_retry_after_witness :
    ∃ t0 ts, dropOld (6 - denyExState.window) (denyExState.hits "k") = t0 :: ts ∧
      (9 : Int) = denyExState.window - (6 - t0) ∧
      denyExState1.hits "k" = t0 :: ts ∧
      ∃ rl2, denyExState1.allow "k" (6 + 9 + 1) = some ((true, 0), rl2) :=
  deny_retry_after denyExState "k" 6 9 denyExState1 1 (by decide) rfl (by decide)

/-- C3 (code bug): the spec requires `limit = 0` to always deny with
retryAfter = window, but the code reaches the deny branch with an empty
pruned queue and evaluates `q[0]`, a panic (index out of range), on the very
first call for a fresh key; `none` models that panic
(src/main.go lines 63-67). -/
theorem limit_zero_first_call_aborts :
    (newRateLimiter 0 10).allow "k" 5 = none := rfl

/-- C4: firing N > L requests for one key at the same instant admits exactly
the first L and denies the remaining N - L.  The Go mutex makes each `allow`
body atomic, so every interleaving of N simultaneous requests executes as a
sequence of N `allow` calls at the same clock reading; the limit is positive
as required of the policy parameter (spec data model: limit > 0). -/
theorem simultaneous_requests_admit_exactly_limit (L N : Nat) (W now : Int)
    (key : String) (hL : 0 < L) (hW : 0 < W) (hN : L < N) :
    ∃ retry rlF, allowRun key (newRateLimiter L W) (List.replicate N now)
      = some (List.replicate L (true, 0)
          ++ List.replicate (N - L) (false, retry), rlF) := by
  have hsplit : List.replicate N now
      = List.replicate L now ++ List.replicate (N - L) now := by
    rw [← List.replicate_add]
    congr 1
    omega
  obtain ⟨rl1, hrun, hh, hl, hw, hfr⟩ :=
    allowRun_admit_all key now now (List.replicate L now) (newRateLimiter L W)
      (by simpa using hW) (by intro t htm; cases htm)
      (by intro t htm
          rcases List.eq_of_mem_replicate htm with rfl
          exact ⟨le_refl _, le_refl _⟩)
      (by simp [newRateLimiter])
  obtain ⟨L1, rfl⟩ : ∃ L1, L = L1 + 1 := ⟨L - 1, by omega⟩
  have hh1 : rl1.hits key = now :: List.replicate L1 now := by
    rw [hh, List.replicate_succ]
    rfl
  have hcut : ∀ s ∈ now :: List.replicate L1 now, now - rl1.window ≤ s := by
    intro s hs
    have hsnow : s = now := by
      rcases List.mem_cons.mp hs with h1 | h1
      · exact h1
      · exact List.eq_of_mem_replicate h1
    subst hsnow
    rw [hw]
    simp only [newRateLimiter]
    omega
  have hlen2 : rl1.limit ≤ (List.replicate L1 now).length + 1 := by
    rw [hl]
    simp [newRateLimiter]
  obtain ⟨rl2, hrun2, hh2, hl2, hw2⟩ :=
    allowRun_deny_all key now now (List.replicate L1 now) (N - (L1 + 1)) rl1
      hh1 hcut hlen2
  refine ⟨rl1.window - (now - now), rl2, ?_⟩
  rw [hsplit, allowRun_append, hrun]
  simp only [Option.some_bind, hrun2, List.length_replicate]
  rfl

theorem simultaneous_requests_admit_exactly_limit_witness :
    ∃ retry rlF, allowRun "k" (newRateLimiter 1 10) (List.replicate 2 5)
      = some (List.replicate 1 (true, 0)
          ++ List.replicate 1 (false, retry), rlF) :=
  simultaneous_requests_admit_exactly_limit 1 2 10 5 "k" (by decide) (by decide)
    (by decide)

/-- In a chronologically ordered queue, every entry is at most the most
recent (last) entry. -/
theorem sorted_le_of_getLast :
    ∀ (l : List Int), l.Sorted (· ≤ ·) → ∀ tl, l.getLast? = some tl →
      ∀ t ∈ l, t ≤ tl := by
  intro l
  induction l with
  | nil =>
    intro _ tl _ t htm
    cases htm
  | cons x xs ih =>
    intro hs tl h t htm
    cases xs with
    | nil =>
      have hx : x = tl := by simpa using h
      have ht : t = x := by simpa using htm
      omega
    | cons y ys =>
      rw [List.getLast?_cons_cons] at h
      rcases List.sorted_cons.mp hs with ⟨hhead, htail⟩
      rcases List.mem_cons.mp htm with rfl | htm1
      · exact hhead tl (List.mem_of_mem_getLast? h)
      · exact ih htail tl h t htm1

/-- C8: on the chronologically ordered queue the prune loop drops exactly
the contiguous prefix strictly older than cutoff = now - window, keeping
every timestamp at or after the cutoff; consequently a key whose most recent
stored timestamp lies more than `window` before `now` is treated as having
no history: the call is admitted and the stored queue becomes just [now]
(src/main.go lines 56-62). -/
theorem prune_window (rl : rateLimiter) (key : String) (now : Int)
    (hsort : (rl.hits key).Sorted (· ≤ ·)) (hL : 0 < rl.limit) :
    dropOld (now - rl.window) (rl.hits key)
      = (rl.hits key).filter (fun t => decide (now - rl.window ≤ t)) ∧
    ∀ tl, (rl.hits key).getLast? = some tl → tl < now - rl.window →
      rl.allow key now
        = some ((true, 0), { rl with hits := updateHits rl.hits key [now] }) := by
  refine ⟨dropOld_sorted_eq_filter _ _ hsort, ?_⟩
  intro tl hlast hold
  have hall : ∀ t ∈ rl.hits key, t < now - rl.window := by
    intro t htm
    have := sorted_le_of_getLast (rl.hits key) hsort tl hlast t htm
    omega
  have hnil := dropOld_eq_nil (now - rl.window) (rl.hits key) hall
  have hlt : (dropOld (now - rl.window) (rl.hits key)).length < rl.limit := by
    rw [hnil]
    simpa using hL
  have hfin := allow_grant rl key now hlt
  rw [hnil] at hfin
  simpa using hfin

/-- Concrete state for the C8 witness: hits at t = 1 and t = 5, window 10,
queried at t = 16 (both entries stale). -/
def pruneExState : rateLimiter :=
  { hits := updateHits (fun _ => []) "k" [1, 5], limit := 1, window := 10 }

theorem prune_window_witness :
    dropOld (16 - pruneExState.window) (pruneExState.hits "k")
      = (pruneExState.hits "k").filter
          (fun t => decide (16 - pruneExState.window ≤ t)) ∧
    ∀ tl, (pruneExState.hits "k").getLast? = some tl →
      tl < 16 - pruneExState.window →
      pruneExState.allow "k" 16 = some ((true, 0),
        { pruneExState with hits := updateHits pruneExState.hits "k" [16] }) :=
  prune_window pruneExState "k" 16 (by decide) (by decide)

/-- `allow` preserves the per-key length bound `limit`. -/
theorem allow_length_bound (rl : rateLimiter) (key : String) (now : Int)
    (ok : Bool) (r : Int) (rl1 : rateLimiter)
    (h : rl.allow key now = some ((ok, r), rl1))
    (hb : ∀ k, (rl.hits k).length ≤ rl.limit) :
    ∀ k, (rl1.hits k).length ≤ rl.limit := by
  intro k
  by_cases hk : k = key
  · subst hk
    rcases allow_inv rl k now ok r rl1 h with
      ⟨_, _, hlt, hrl⟩ | ⟨_, t0, ts, hq, hlen, _, hrl⟩
    · subst hrl
      simp only [updateHits_apply, List.length_append, List.length_cons,
        List.length_nil]
      omega
    · subst hrl
      simp only [updateHits_apply]
      have h1 := dropOld_length_le (now - rl.window) (rl.hits k)
      rw [hq] at h1
      have h2 := hb k
      omega
  · rcases allow_frame rl key now ok r rl1 h with ⟨_, _, hfr⟩
    rw [hfr k hk]
    exact hb k

/-- With a positive limit no call panics, the per-key length bound is an
invariant of whole traces, and admitted calls return retryAfter 0. -/
theorem allowTrace_total :
    ∀ (calls : List (String × Int)) (rl : rateLimiter), 0 < rl.limit →
      (∀ k, (rl.hits k).length ≤ rl.limit) →
      ∃ out rl1, allowTrace rl calls = some (out, rl1) ∧
        (∀ k, (rl1.hits k).length ≤ rl.limit) ∧
        rl1.limit = rl.limit ∧ rl1.window = rl.window ∧
        (∀ p ∈ out, p.2.1 = true → p.2.2 = 0) := by
  intro calls
  induction calls with
  | nil =>
    intro rl hpos hb
    exact ⟨[], rl, rfl, hb, rfl, rfl, fun p hp => absurd hp (List.not_mem_nil p)⟩
  | cons c cs ih =>
    intro rl hpos hb
    obtain ⟨key, t⟩ := c
    obtain ⟨ok, r, rl1, hstep⟩ := allow_some rl key t hpos
    rcases allow_frame rl key t ok r rl1 hstep with ⟨hl1, hw1, _⟩
    have hb1 : ∀ k, (rl1.hits k).length ≤ rl1.limit := by
      rw [hl1]
      exact allow_length_bound rl key t ok r rl1 hstep hb
    obtain ⟨out, rl2, hrun, hb2, hl2, hw2, hz⟩ :=
      ih rl1 (by rw [hl1]; exact hpos) hb1
    refine ⟨(key, ok, r) :: out, rl2, ?_, ?_, ?_, ?_, ?_⟩
    · simp only [allowTrace, hstep, hrun]
    · intro k
      have hk := hb2 k
      rw [hl1] at hk
      exact hk
    · rw [hl2, hl1]
    · rw [hw2, hw1]
    · intro p hp hpt
      rcases List.mem_cons.mp hp with rfl | hp1
      · rcases allow_inv rl key t ok r rl1 hstep with ⟨_, hr, _, _⟩ | ⟨hok, _⟩
        · exact hr
        · have hpt1 : ok = true := hpt
          rw [hok] at hpt1
          exact Bool.noConfusion hpt1
      · exact hz p hp1 hpt

/-- C10: with limit L > 0, starting from the empty store and any sequence of
calls with nondecreasing call times (as the monotonic clock produces), every
key's stored queue has length at most L after every call (i.e. after every
prefix of the trace), and `allow` returns retryAfter 0 whenever it admits.
(The proof never needs the monotonicity hypothesis; it is kept to mirror the
claim.) -/
theorem store_bounded_and_admit_retry_zero (L : Nat) (W : Int)
    (calls : List (String × Int)) (hL : 0 < L)
    (hmono : List.Chain' (· ≤ ·) (calls.map (fun c => c.2))) :
    ∀ n : Nat, ∃ out rl1,
      allowTrace (newRateLimiter L W) (calls.take n) = some (out, rl1) ∧
      (∀ k, (rl1.hits k).length ≤ L) ∧
      (∀ p ∈ out, p.2.1 = true → p.2.2 = 0) := by
  intro n
  obtain ⟨out, rl1, hrun, hb, _, _, hz⟩ :=
    allowTrace_total (calls.take n) (newRateLimiter L W) hL
      (by intro k; simp [newRateLimiter])
  exact ⟨out, rl1, hrun, hb, hz⟩

theorem store_bounded_and_admit_retry_zero_witness :
    ∃ out rl1,
      allowTrace (newRateLimiter 1 10) ([("a", 0), ("a", 1)].take 2)
        = some (out, rl1) ∧
      (∀ k, (rl1.hits k).length ≤ 1) ∧
      (∀ p ∈ out, p.2.1 = true → p.2.2 = 0) :=
  store_bounded_and_admit_retry_zero 1 10 [("a", 0), ("a", 1)] (by decide)
    (by simp) 2

/-- Projection of an interleaved trace onto one key: the outcome subsequence
for key A equals the outcome sequence of running A's calls alone on any
limiter that agrees with the original at key A (in particular one holding
only A's state). -/
theorem allowTrace_project (A : String) :
    ∀ (calls : List (String × Int)) (rl rlA : rateLimiter),
      0 < rl.limit → rl.limit = rlA.limit → rl.window = rlA.window →
      rl.hits A = rlA.hits A →
      ∃ out rl1 outA rlA1,
        allowTrace rl calls = some (out, rl1) ∧
        allowRun A rlA
          ((calls.filter (fun c => decide (c.1 = A))).map (fun c => c.2))
          = some (outA, rlA1) ∧
        (out.filter (fun p => decide (p.1 = A))).map (fun p => p.2) = outA ∧
        rl1.hits A = rlA1.hits A := by
  intro calls
  induction calls with
  | nil =>
    intro rl rlA hpos hl hw hh
    exact ⟨[], rl, [], rlA, rfl, rfl, rfl, hh⟩
  | cons c cs ih =>
    intro rl rlA hpos hl hw hh
    obtain ⟨key, t⟩ := c
    obtain ⟨ok, r, rl1, hstep⟩ := allow_some rl key t hpos
    rcases allow_frame rl key t ok r rl1 hstep with ⟨hl1, hw1, hfr1⟩
    by_cases hk : key = A
    · subst hk
      obtain ⟨rlA1, hstepA, hhA⟩ := allow_congr rl rlA key t hh hl hw ok r rl1 hstep
      rcases allow_frame rlA key t ok r rlA1 hstepA with ⟨hlA1, hwA1, _⟩
      obtain ⟨out, rl2, outA, rlA2, hrun, hrunA, hproj, hh2⟩ :=
        ih rl1 rlA1 (by rw [hl1]; exact hpos) (by rw [hl1, hlA1, hl])
          (by rw [hw1, hwA1, hw]) hhA
      refine ⟨(key, ok, r) :: out, rl2, (ok, r) :: outA, rlA2, ?_, ?_, ?_, hh2⟩
      · simp only [allowTrace, hstep, hrun]
      · have hfk : decide (((key, t)).1 = key) = true := by simp
        simp only [List.filter_cons, hfk, if_pos trivial, List.map_cons]
        simp only [allowRun, hstepA, hrunA]
      · simp [List.filter_cons, hproj]
    · obtain ⟨out, rl2, outA, rlA2, hrun, hrunA, hproj, hh2⟩ :=
        ih rl1 rlA (by rw [hl1]; exact hpos) (by rw [hl1]; exact hl)
          (by rw [hw1]; exact hw)
          (by rw [hfr1 A (fun hAk => hk hAk.symm)]; exact hh)
      refine ⟨(key, ok, r) :: out, rl2, outA, rlA2, ?_, ?_, ?_, hh2⟩
      · simp only [allowTrace, hstep, hrun]
      · have hfk : decide (((key, t)).1 = A) = false := by simp [hk]
        simpa [List.filter_cons, hfk] using hrunA
      · have hfo : decide (((key, (ok, r))).1 = A) = false := by simp [hk]
        simpa [List.filter_cons, hfo] using hproj

/-- C9: admission decisions for distinct client keys are independent.  For
any interleaved call sequence and any key A, the (admitted, retryAfter)
outcome subsequence observed for A equals the outcome sequence A's calls
would produce when issued alone against a store containing only A's state;
instantiating at each of the two keys of an A/B-interleaving gives the
claim's two-key statement.  The limit is positive as the data model
requires of the policy parameter. -/
theorem distinct_keys_independent (rl : rateLimiter) (A : String)
    (calls : List (String × Int)) (hpos : 0 < rl.limit) :
    ∃ out rl1 outA rlA1,
      allowTrace rl calls = some (out, rl1) ∧
      allowRun A { rl with hits := (fun k => if k = A then rl.hits A else []) }
        ((calls.filter (fun c => decide (c.1 = A))).map (fun c => c.2))
        = some (outA, rlA1) ∧
      (out.filter (fun p => decide (p.1 = A))).map (fun p => p.2) = outA ∧
      rl1.hits A = rlA1.hits A :=
  allowTrace_project A calls rl
    { rl with hits := (fun k => if k = A then rl.hits A else []) }
    hpos rfl rfl (by simp)

theorem distinct_keys_independent_witness :
    ∃ out rl1 outA rlA1,
      allowTrace (newRateLimiter 1 10) [("A", 0), ("B", 0), ("A", 1)]
        = some (out, rl1) ∧
      allowRun "A" { newRateLimiter 1 10 with
          hits := (fun k => if k = "A" then (newRateLimiter 1 10).hits "A" else []) }
        (([("A", 0), ("B", 0), ("A", 1)].filter
            (fun c => decide (c.1 = "A"))).map (fun c => c.2))
        = some (outA, rlA1) ∧
      (out.filter (fun p => decide (p.1 = "A"))).map (fun p => p.2) = outA ∧
      rl1.hits "A" = rlA1.hits "A" :=
  distinct_keys_independent (newRateLimiter 1 10) "A"
    [("A", 0), ("B", 0), ("A", 1)] (by decide)

/-! The HTTP layer: client key derivation and the admission middleware. -/

/-- The parts of Go's http.Request that clientKey and the middleware read:
the method, the X-Forwarded-For header value (the empty string when the
header is absent, exactly what Header.Get returns), and RemoteAddr. -/
structure Request where
  method : String
  xForwardedFor : String
  remoteAddr : String

/-- Index of the first occurrence of a character in a list. -/
def firstIdx (c : Char) : List Char → Option Nat
  | [] => none
  | x :: xs => if x = c then some 0 else (firstIdx c xs).map (· + 1)

/-- Index of the last occurrence of a character in a list (Go net.last). -/
def lastIdx (c : Char) : List Char → Option Nat
  | [] => none
  | x :: xs =>
    match lastIdx c xs with
    | some j => some (j + 1)
    | none => if x = c then some 0 else none

/-- Model of Go stdlib net.SplitHostPort (an external collaborator of
src/main.go, from net/ipsock.go): split "host:port" or "[host]:port" around
the last colon; `none` models every error return (missing port, too many
colons, malformed or stray brackets). -/
def splitHostPort (hostport : String) : Option (String × String) :=
  let s := hostport.data
  match lastIdx ':' s with
  | none => none
  | some i =>
    match s with
    | [] => none
    | c0 :: _ =>
      if c0 = '[' then
        match firstIdx ']' s with
        | none => none
        | some e =>
          if e + 1 = s.length then none
          else if e + 1 = i then
            if (s.drop 1).contains '[' then none
            else if (s.drop (e + 1)).contains ']' then none
            else some (String.mk ((s.take e).drop 1), String.mk (s.drop (i + 1)))
          else none
      else
        if (s.take i).contains ':' then none
        else if s.contains '[' then none
        else if s.contains ']' then none
        else some (String.mk (s.take i), String.mk (s.drop (i + 1)))

/-- Go strings.Split with a one-character separator: split around every
occurrence; the result always has at least one (possibly empty) part. -/
def splitChar (sep : Char) : List Char → List (List Char)
  | [] => [[]]
  | c :: cs =>
    if c = sep then [] :: splitChar sep cs
    else
      match splitChar sep cs with
      | [] => [[c]]
      | p :: ps => (c :: p) :: ps

/-- Go strings.Split(s, sep) for a one-character sep, as Strings. -/
def goSplit (s : String) (sep : Char) : List String :=
  (splitChar sep s.data).map (fun l => String.mk l)

/-- Go unicode.IsSpace restricted to the Latin-1 range ('\t', '\n', vertical
tab, form feed, '\r', ' ', NEL, NBSP); space code points above U+00FF are
not modelled (they cannot change any claim checked here). -/
def goIsSpace (c : Char) : Bool :=
  c == '\t' || c == '\n' || c == Char.ofNat 11 || c == Char.ofNat 12 ||
    c == '\r' || c == ' ' || c == Char.ofNat 133 || c == Char.ofNat 160

/-- Go strings.TrimSpace: strip leading and trailing white space. -/
def goTrimSpace (s : String) : String :=
  String.mk (((s.data.dropWhile goIsSpace).reverse.dropWhile goIsSpace).reverse)

/-- Go clientKey (src/main.go lines 74-84): with a non-empty forwarded-for
header, its first comma-separated entry trimmed; otherwise the host part of
RemoteAddr, falling back to the raw RemoteAddr string when it cannot be
split into host and port.  strings.Split always returns at least one part,
so the headD default is never used. -/
def clientKey (r : Request) : String :=
  if r.xForwardedFor ≠ "" then
    goTrimSpace ((goSplit r.xForwardedFor ',').headD "")
  else
    match splitHostPort r.remoteAddr with
    | some (host, _) => host
    | none => r.remoteAddr

theorem splitChar_ne_nil (sep : Char) (l : List Char) : splitChar sep l ≠ [] := by
  cases l with
  | nil => simp [splitChar]
  | cons c cs =>
    by_cases h : c = sep
    · simp [splitChar, h]
    · simp only [splitChar, if_neg h]
      cases hcs : splitChar sep cs with
      | nil => simp
      | cons p ps => simp

/-- The first part produced by splitting is everything before the first
separator. -/
theorem splitChar_head (sep : Char) :
    ∀ l : List Char,
      (splitChar sep l).headD [] = l.takeWhile (fun c => !(c == sep)) := by
  intro l
  induction l with
  | nil => rfl
  | cons c cs ih =>
    by_cases h : c = sep
    · subst h
      simp [splitChar, List.takeWhile_cons]
    · simp only [splitChar, if_neg h]
      cases hcs : splitChar sep cs with
      | nil => exact absurd hcs (splitChar_ne_nil sep cs)
      | cons p ps =>
        have ih2 : p = cs.takeWhile (fun x => !(x == sep)) := by
          rw [hcs] at ih
          simpa using ih
        simp [List.takeWhile_cons, h, ih2]

/-- C7: clientKey is a pure function of the request's address metadata.
With a non-empty forwarded-for header it is the header's first
comma-separated entry (everything before the first comma) with surrounding
whitespace trimmed; otherwise it is the host part when RemoteAddr splits as
host:port, and the full raw RemoteAddr string (no error surfaced) when it
does not (src/main.go lines 74-84). -/
theorem clientKey_cases (r : Request) :
    (r.xForwardedFor ≠ "" →
      clientKey r = goTrimSpace
        (String.mk (r.xForwardedFor.data.takeWhile (fun c => !(c == ','))))) ∧
    (r.xForwardedFor = "" →
      (∀ host port, splitHostPort r.remoteAddr = some (host, port) →
        clientKey r = host) ∧
      (splitHostPort r.remoteAddr = none → clientKey r = r.remoteAddr)) := by
  constructor
  · intro hx
    simp only [clientKey, if_pos hx]
    have hhead := splitChar_head ',' r.xForwardedFor.data
    cases hcs : splitChar ',' r.xForwardedFor.data with
    | nil => exact absurd hcs (splitChar_ne_nil _ _)
    | cons p ps =>
      rw [hcs] at hhead
      simp only [List.headD_cons] at hhead
      simp [goSplit, hcs, hhead]
  · intro hx
    constructor
    · intro host port hsp
      simp [clientKey, hx, hsp]
    · intro hsp
      simp [clientKey, hx, hsp]

theorem clientKey_cases_witness :
    clientKey (⟨"POST", " 1.2.3.4 ,5.6.7.8", "9.9.9.9:80"⟩ : Request)
      = goTrimSpace (String.mk
          ((" 1.2.3.4 ,5.6.7.8" : String).data.takeWhile (fun c => !(c == ',')))) :=
  (clientKey_cases _).1 (by decide)

/-- The response fields the middleware itself writes: status code, whether
the permissive cross-origin headers from allowCORS were set, the Retry-After
header value, the Content-Type header, and the body. -/
structure HttpResponse where
  status : Nat
  corsHeaders : Bool
  retryAfterHeader : Option String
  contentType : Option String
  body : String
deriving DecidableEq

/-- Outcome of one middleware invocation: either the middleware wrote the
response itself (the OPTIONS preflight short-circuit or a 429 denial — the
wrapped handler is not invoked), or the request was forwarded to the wrapped
handler (which then owns the response) under the shown client key. -/
inductive MWOutcome where
  | responded (resp : HttpResponse)
  | forwarded (key : String)
deriving DecidableEq

/-- The preflight short-circuit response (src/main.go lines 88-92):
allowCORS headers, status 204 (http.StatusNoContent), empty body. -/
def preflightResponse : HttpResponse :=
  { status := 204, corsHeaders := true, retryAfterHeader := none,
    contentType := none, body := "" }

/-- Go int(d.Seconds()) for a Duration d in nanoseconds: the float64 second
count truncated toward zero, which for the magnitudes arising here (far
below 2^53 ns) is truncating integer division by 10^9. -/
def goSecondsInt (d : Int) : Int := Int.tdiv d 1000000000

/-- The 429 denial response (src/main.go lines 95-102): allowCORS headers,
Retry-After printed with %d from int(retry.Seconds()), Content-Type
application/json, and the JSON body carrying the configured limit and the
window in whole seconds. -/
def denyResponse (rl : rateLimiter) (retry : Int) : HttpResponse :=
  { status := 429, corsHeaders := true,
    retryAfterHeader := some (toString (goSecondsInt retry)),
    contentType := some "application/json",
    body := "\x7b\"error\":\"rate limit exceeded\",\"limit\":"
      ++ toString rl.limit ++ ",\"window_seconds\":"
      ++ toString (goSecondsInt rl.window) ++ "\x7d" }

/-- Go (rl *rateLimiter) Middleware (src/main.go lines 86-105) as a function
of the request and the clock reading; `none` propagates the allow panic. -/
def Middleware (rl : rateLimiter) (r : Request) (now : Int) :
    Option (MWOutcome × rateLimiter) :=
  if r.method = "OPTIONS" then
    some (MWOutcome.responded preflightResponse, rl)
  else
    match rl.allow (clientKey r) now with
    | none => none
    | some ((ok, retry), rl1) =>
      if ok then some (MWOutcome.forwarded (clientKey r), rl1)
      else some (MWOutcome.responded (denyResponse rl retry), rl1)

/-- Sequential middleware invocations over (request, time) pairs. -/
def middlewareRun : rateLimiter → List (Request × Int) →
    Option (List MWOutcome × rateLimiter)
  | rl, [] => some ([], rl)
  | rl, (r, t) :: rest =>
    match Middleware rl r t with
    | none => none
    | some (o, rl1) =>
      match middlewareRun rl1 rest with
      | none => none
      | some (out, rl2) => some (o :: out, rl2)

theorem middleware_options (rl : rateLimiter) (r : Request) (now : Int)
    (h : r.method = "OPTIONS") :
    Middleware rl r now = some (MWOutcome.responded preflightResponse, rl) := by
  simp [Middleware, h]

theorem middleware_step (rl : rateLimiter) (r : Request) (now : Int)
    (h : ¬ r.method = "OPTIONS") :
    Middleware rl r now = match rl.allow (clientKey r) now with
      | none => none
      | some ((ok, retry), rl1) =>
        if ok then some (MWOutcome.forwarded (clientKey r), rl1)
        else some (MWOutcome.responded (denyResponse rl retry), rl1) := by
  simp [Middleware, h]

theorem middlewareRun_options :
    ∀ (opts : List (Request × Int)) (rl : rateLimiter),
      (∀ p ∈ opts, p.1.method = "OPTIONS") →
      middlewareRun rl opts
        = some (List.replicate opts.length
            (MWOutcome.responded preflightResponse), rl) := by
  intro opts
  induction opts with
  | nil =>
    intro rl _
    rfl
  | cons p rest ih =>
    intro rl hm
    obtain ⟨r, t⟩ := p
    have h1 : r.method = "OPTIONS" := hm (r, t) (List.mem_cons_self _ _)
    simp only [middlewareRun, middleware_options rl r t h1,
      ih rl (fun q hq => hm q (List.mem_cons_of_mem _ hq))]
    simp [List.replicate_succ]

theorem middlewareRun_append (xs ys : List (Request × Int)) :
    ∀ rl : rateLimiter, middlewareRun rl (xs ++ ys)
      = (middlewareRun rl xs).bind fun p =>
          (middlewareRun p.2 ys).map fun q => (p.1 ++ q.1, q.2) := by
  induction xs with
  | nil =>
    intro rl
    cases h : middlewareRun rl ys with
    | none => simp [middlewareRun, h]
    | some p =>
      obtain ⟨out, rl2⟩ := p
      simp [middlewareRun, h]
  | cons x xs ih =>
    intro rl
    obtain ⟨r, t⟩ := x
    simp only [List.cons_append, middlewareRun]
    cases ha : Middleware rl r t with
    | none => rfl
    | some pr =>
      obtain ⟨o, rl1⟩ := pr
      have e : xs.append ys = xs ++ ys := rfl
      rw [e]
      show (match middlewareRun rl1 (xs ++ ys) with
          | none => none
          | some (out, rl2) => some (o :: out, rl2)) =
        (match middlewareRun rl1 xs with
          | none => none
          | some (out, rl2) => some (o :: out, rl2)).bind
          fun p => Option.map
            (fun q : List MWOutcome × rateLimiter => (p.1 ++ q.1, q.2))
            (middlewareRun p.2 ys)
      rw [ih rl1]
      cases h1 : middlewareRun rl1 xs with
      | none => rfl
      | some p =>
        obtain ⟨out, rl2⟩ := p
        cases h2 : middlewareRun rl2 ys with
        | none => simp [h2]
        | some q =>
          obtain ⟨out2, rl3⟩ := q
          simp [h2]

/-- Non-OPTIONS requests for one key, all inside an interval shorter than
the window and with enough capacity left, are all forwarded to the wrapped
handler. -/
theorem middlewareRun_admit_all (key : String) (a b : Int) :
    ∀ (posts : List (Request × Int)) (rl : rateLimiter),
      b - a < rl.window →
      (∀ t ∈ rl.hits key, a ≤ t ∧ t ≤ b) →
      (∀ p ∈ posts, p.1.method ≠ "OPTIONS" ∧ clientKey p.1 = key ∧
        a ≤ p.2 ∧ p.2 ≤ b) →
      (rl.hits key).length + posts.length ≤ rl.limit →
      ∃ rl1, middlewareRun rl posts
        = some (List.replicate posts.length (MWOutcome.forwarded key), rl1) := by
  intro posts
  induction posts with
  | nil =>
    intro rl _ _ _ _
    exact ⟨rl, rfl⟩
  | cons p rest ih =>
    intro rl hW hprev hps hlen
    obtain ⟨r, t⟩ := p
    obtain ⟨hm, hck, hta, htb⟩ := hps (r, t) (List.mem_cons_self _ _)
    have hcut : ∀ s ∈ rl.hits key, t - rl.window ≤ s := by
      intro s hs
      have h1 := (hprev s hs).1
      omega
    have hprune : dropOld (t - rl.window) (rl.hits key) = rl.hits key :=
      dropOld_eq_self _ _ hcut
    have hlt : (dropOld (t - rl.window) (rl.hits key)).length < rl.limit := by
      rw [hprune]
      simp only [List.length_cons] at hlen
      omega
    have hstep := allow_grant rl key t hlt
    rw [hprune] at hstep
    have hmw : Middleware rl r t = some (MWOutcome.forwarded key,
        { rl with hits := (updateHits rl.hits key (rl.hits key ++ [t])) }) := by
      rw [middleware_step rl r t hm, hck, hstep]
      rfl
    have hprev1 : ∀ s ∈ rl.hits key ++ [t], a ≤ s ∧ s ≤ b := by
      intro s hs
      rcases List.mem_append.mp hs with hs1 | hs1
      · exact hprev s hs1
      · rcases List.mem_singleton.mp hs1 with rfl
        exact ⟨hta, htb⟩
    have hlen1 : ((rl.hits key ++ [t]).length) + rest.length ≤ rl.limit := by
      simp only [List.length_append, List.length_cons, List.length_nil] at *
      omega
    obtain ⟨rl2, hrun⟩ :=
      ih { rl with hits := (updateHits rl.hits key (rl.hits key ++ [t])) }
        hW (by simpa only [updateHits_apply] using hprev1)
        (fun q hq => hps q (List.mem_cons_of_mem _ hq))
        (by simpa only [updateHits_apply] using hlen1)
    refine ⟨rl2, ?_⟩
    simp only [middlewareRun, hmw, hrun]
    simp [List.replicate_succ]

/-- C5: an OPTIONS request is answered immediately with the empty 204
response carrying the permissive cross-origin headers, the limiter state is
returned unchanged, and the branch returns before the admission policy is
consulted (the outcome does not depend on `allow`); consequently L OPTIONS
requests followed by L in-window POST requests for one key still leave all
L POSTs admitted (src/main.go lines 86-105). -/
theorem options_preflight_bypass (L : Nat) (W : Int) (key : String)
    (opts posts : List (Request × Int)) (a b : Int)
    (hopts : ∀ p ∈ opts, p.1.method = "OPTIONS") (hoL : opts.length = L)
    (hposts : ∀ p ∈ posts, p.1.method = "POST" ∧ clientKey p.1 = key ∧
      a ≤ p.2 ∧ p.2 ≤ b)
    (hpL : posts.length = L) (hab : b - a < W) :
    (∀ (rl : rateLimiter) (r : Request) (now : Int), r.method = "OPTIONS" →
      Middleware rl r now = some (MWOutcome.responded preflightResponse, rl)) ∧
    preflightResponse.status = 204 ∧ preflightResponse.corsHeaders = true ∧
    preflightResponse.body = "" ∧
    ∃ rlF, middlewareRun (newRateLimiter L W) (opts ++ posts)
      = some (List.replicate L (MWOutcome.responded preflightResponse)
          ++ List.replicate L (MWOutcome.forwarded key), rlF) := by
  refine ⟨middleware_options, rfl, rfl, rfl, ?_⟩
  obtain ⟨rl1, hrun⟩ := middlewareRun_admit_all key a b posts (newRateLimiter L W)
    hab (by intro t htm; cases htm)
    (by intro p hp
        obtain ⟨h1, h2, h3, h4⟩ := hposts p hp
        exact ⟨by rw [h1]; decide, h2, h3, h4⟩)
    (by simp [newRateLimiter, hpL])
  refine ⟨rl1, ?_⟩
  rw [middlewareRun_append, middlewareRun_options opts (newRateLimiter L W) hopts]
  simp only [Option.some_bind, hrun, hoL, hpL]
  rfl

/-- A concrete OPTIONS request from the C5 scenario. -/
def optionsExReq : Request := ⟨"OPTIONS", "", "1.2.3.4:80"⟩

/-- A concrete POST request from the C5 scenario. -/
def postExReq : Request := ⟨"POST", "", "1.2.3.4:80"⟩

theorem options_preflight_bypass_witness :
    (∀ (rl : rateLimiter) (r : Request) (now : Int), r.method = "OPTIONS" →
      Middleware rl r now = some (MWOutcome.responded preflightResponse, rl)) ∧
    preflightResponse.status = 204 ∧ preflightResponse.corsHeaders = true ∧
    preflightResponse.body = "" ∧
    ∃ rlF, middlewareRun (newRateLimiter 1 10)
        ([(optionsExReq, 0)] ++ [(postExReq, 1)])
      = some (List.replicate 1 (MWOutcome.responded preflightResponse)
          ++ List.replicate 1 (MWOutcome.forwarded "1.2.3.4"), rlF) :=
  options_preflight_bypass 1 10 "1.2.3.4" [(optionsExReq, 0)] [(postExReq, 1)]
    1 1 (by decide) (by decide) (by decide) (by decide) (by decide)

/-- Modelled from the spec: the claim's "Retry-After header (seconds,
integer, rounded)" read as rounding to the nearest whole second, for the
nonnegative durations (in nanoseconds) a denial produces. -/
def roundedSeconds (d : Int) : Int := (d + 500000000) / 1000000000

/-- Concrete limiter for the C6 scenario: limit 1, window 10 s (in
nanoseconds), one hit at t = 0 for key "1.2.3.4". -/
def denySecExState : rateLimiter :=
  { hits := updateHits (fun _ => []) "1.2.3.4" [0], limit := 1,
    window := 10000000000 }

/-- State of `denySecExState` after the denial at t = 1.3 s (pruned queue
written back). -/
def denySecExState1 : rateLimiter :=
  { hits := updateHits (updateHits (fun _ => []) "1.2.3.4" [0]) "1.2.3.4" [0],
    limit := 1, window := 10000000000 }

/-- The POST request of the C6 scenario. -/
def denySecExReq : Request := ⟨"POST", "", "1.2.3.4:80"⟩

/-- C6 counterexample: denied at t = 1.3 s with retryAfter = 8.7 s, the
middleware sends Retry-After "8" because int(retry.Seconds()) truncates
toward zero, while the nearest whole second of 8.7 s is 9 — so the header
is not "the retryAfter duration expressed as a rounded integer number of
seconds". -/
theorem retry_after_rounding_counterexample :
    (Middleware denySecExState denySecExReq 1300000000).map Prod.fst
      = some (MWOutcome.responded (denyResponse denySecExState 8700000000)) ∧
    (denyResponse denySecExState 8700000000).retryAfterHeader = some "8" ∧
    roundedSeconds 8700000000 = 9 ∧ toString (9 : Int) ≠ "8" := by
  refine ⟨rfl, rfl, rfl, ?_⟩
  decide

/-- C6 (amended): whenever the middleware denies a request it responds with
status 429, a Retry-After header of the retryAfter duration truncated
toward zero to whole seconds (rather than rounded to the nearest second),
Content-Type application/json, the JSON body with the fixed error string,
the configured limit and the window in whole seconds, and it does not
invoke the wrapped handler (src/main.go lines 95-102). -/
theorem middleware_deny_response (rl : rateLimiter) (r : Request)
    (now retry : Int) (rl1 : rateLimiter)
    (hm : r.method ≠ "OPTIONS")
    (h : rl.allow (clientKey r) now = some ((false, retry), rl1)) :
    Middleware rl r now
      = some (MWOutcome.responded (denyResponse rl retry), rl1) ∧
    (denyResponse rl retry).status = 429 ∧
    (denyResponse rl retry).retryAfterHeader
      = some (toString (goSecondsInt retry)) ∧
    (denyResponse rl retry).contentType = some "application/json" ∧
    (denyResponse rl retry).body
      = "\x7b\"error\":\"rate limit exceeded\",\"limit\":" ++ toString rl.limit
        ++ ",\"window_seconds\":" ++ toString (goSecondsInt rl.window)
        ++ "\x7d" ∧
    (∀ k, MWOutcome.responded (denyResponse rl retry)
      ≠ MWOutcome.forwarded k) := by
  refine ⟨?_, rfl, rfl, rfl, rfl, fun k => by simp⟩
  rw [middleware_step rl r now hm, h]
  rfl

theorem middleware_deny_response_witness :
    Middleware denySecExState denySecExReq 1300000000
      = some (MWOutcome.responded (denyResponse denySecExState 8700000000),
          denySecExState1) :=
  (middleware_deny_response denySecExState denySecExReq 1300000000 8700000000
    denySecExState1 (by decide) rfl).1
